import Mathlib

/-!
Verification of the cliche annotation parser and metadata compiler.

Strings are modelled as `List Char`; the Go functions of
`src/unnamed/part_001` (package meta: Tag, ArgSpec, FlagSpec),
`src/meta/meta.go` (compileInputs, sanitizeHelp, FromFile assembly) and
`src/cliche.go` (the second sanitizeHelp) are translated one-for-one.
-/

/-- Go strings are modelled as lists of characters. -/
abbrev Str := List Char

/-- Convert a Lean string literal into the model representation. -/
def chars (s : String) : Str := s.data

/-- `unicode.IsSpace`, used by `strings.TrimSpace`: the Unicode
White_Space code points. -/
def isUniSpace (c : Char) : Bool :=
  c.toNat = 9 || c.toNat = 10 || c.toNat = 11 || c.toNat = 12 ||
  c.toNat = 13 || c.toNat = 32 || c.toNat = 0x85 || c.toNat = 0xA0 ||
  c.toNat = 0x1680 || (0x2000 ≤ c.toNat && c.toNat ≤ 0x200A) ||
  c.toNat = 0x2028 || c.toNat = 0x2029 || c.toNat = 0x202F ||
  c.toNat = 0x205F || c.toNat = 0x3000

/-- Go regexp `\s`, i.e. the class `[\t\n\f\r ]`. -/
def isReSpace (c : Char) : Bool :=
  c.toNat = 9 || c.toNat = 10 || c.toNat = 12 || c.toNat = 13 || c.toNat = 32

/-- Go regexp `\d`, i.e. `[0-9]`; also the digit test inside `strconv.Atoi`. -/
def isDigitCh (c : Char) : Bool := 48 ≤ c.toNat && c.toNat ≤ 57

/-- The class `[a-zA-Z]`. -/
def isAlphaCh (c : Char) : Bool :=
  (65 ≤ c.toNat && c.toNat ≤ 90) || (97 ≤ c.toNat && c.toNat ≤ 122)

/-- `strings.TrimSpace`: drop Unicode whitespace from both ends. -/
def trimSpace (s : Str) : Str :=
  ((s.dropWhile isUniSpace).reverse.dropWhile isUniSpace).reverse

/-- `strings.HasPrefix`. -/
def startsWith : Str → Str → Bool
  | [], _ => true
  | _ :: _, [] => false
  | p :: ps, c :: cs => p = c && startsWith ps cs

/-- `strings.CutPrefix`, with the found flag folded into `Option`. -/
def cutStart (p s : Str) : Option Str :=
  if startsWith p s then some (s.drop p.length) else none

/-- `strings.Split(s, ";")` (single-character separator). -/
def splitSemi : Str → List Str
  | [] => [[]]
  | c :: t =>
    if c = ';' then [] :: splitSemi t
    else
      match splitSemi t with
      | [] => [[c]]
      | h :: r => (c :: h) :: r

/-- A raw cliche struct-tag annotation (`type Tag string`). -/
abbrev Tag := Str

/-- The directive marker `"arg:"`. -/
def argPfx : Str := ['a', 'r', 'g', ':']

/-- The directive marker `"flag:"`. -/
def flagPfx : Str := ['f', 'l', 'a', 'g', ':']

/-- The directive marker `"default:"`. -/
def defaultPfx : Str := ['d', 'e', 'f', 'a', 'u', 'l', 't', ':']

/-- One iteration of the loop in `Tag.decompose`: trim the component and
match it against the three known directive prefixes. -/
def decomposeStep (acc : Str × Str × Str) (comp : Str) : Str × Str × Str :=
  let c := trimSpace comp
  match cutStart argPfx c with
  | some a => (trimSpace a, acc.2.1, acc.2.2)
  | none =>
    match cutStart flagPfx c with
    | some f => (acc.1, acc.2.1, trimSpace f)
    | none =>
      match cutStart defaultPfx c with
      | some d => (acc.1, trimSpace d, acc.2.2)
      | none => acc

/-- `Tag.decompose`: split a tag into its (arg, default, flag) raw values. -/
def Tag.decompose (tag : Tag) : Str × Str × Str :=
  if tag = [] then ([], [], [])
  else (splitSemi tag).foldl decomposeStep ([], [], [])

/-- `ArgSpec` from part_001: parsed positional-argument directive. -/
structure ArgSpec where
  Start : Int
  End : Int
deriving DecidableEq, Repr

/-- Value of a (non-empty, all-digit) decimal string. -/
def natValue (ds : Str) : Nat := ds.foldl (fun a c => 10 * a + (c.toNat - 48)) 0

/-- Digit part of `strconv.Atoi` for a 64-bit int: all characters must be
decimal digits and the value must fit in an int64, else error (`none`). -/
def atoiDigits (neg : Bool) (ds : Str) : Option Int :=
  if ds = [] then none
  else if ds.all isDigitCh then
    let v := natValue ds
    if neg then (if v ≤ 2 ^ 63 then some (-(v : Int)) else none)
    else if v ≤ 2 ^ 63 - 1 then some ((v : Int)) else none
  else none

/-- `strconv.Atoi`: optional sign followed by digits. -/
def atoi : Str → Option Int
  | [] => none
  | c :: t =>
    if c = '-' then atoiDigits true t
    else if c = '+' then atoiDigits false t
    else atoiDigits false (c :: t)

/-!
Model of `argRe.FindStringSubmatch` for the unanchored pattern
`(\d+)|\[([^:]+)?(\:)?([^\]]+)?\]` with Go's leftmost-first (backtracking
preference) semantics.  Inside the bracket alternative, after the captures
`([^:]+)?` (group 2), `(\:)?` (group 3) and `([^\]]+)?` (group 4) the
pattern must consume a literal `]`.
-/

/-- Match `([^\]]+)? \]` at the front of `r`: succeeds exactly when `r`
contains a `]`, capturing the (possibly empty) run before the first `]`. -/
def matchTail (r : Str) : Option Str :=
  let p := r.takeWhile (fun c => c ≠ ']')
  if p.length < r.length then some p else none

/-- Match `(\:)? ([^\]]+)? \]` at the front of `r`, preferring the colon
to be present (backtracking order of the optional group). -/
def tryBC (r : Str) : Option (Str × Str) :=
  match r with
  | ':' :: r2 =>
    (match matchTail r2 with
     | some c => some ([':'], c)
     | none => (matchTail r).map (fun c => ([], c)))
  | _ => (matchTail r).map (fun c => ([], c))

/-- Backtracking over the greedy optional group `([^:]+)?`: try the
capture lengths `k, k-1, …, 1`, then the empty (skipped) group.
`q` is the maximal colon-free prefix of `t`. -/
def tryAloop (t : Str) (q : Str) : Nat → Option (Str × Str × Str)
  | 0 => (tryBC t).map (fun bc => ([], bc.1, bc.2))
  | Nat.succ k =>
    match tryBC (t.drop (k + 1)) with
    | some bc => some (q.take (k + 1), bc.1, bc.2)
    | none => tryAloop t q k

/-- Match the bracket alternative `([^:]+)?(\:)?([^\]]+)?\]` directly after
a `[`, returning the three captured groups. -/
def bracketMatch (t : Str) : Option (Str × Str × Str) :=
  let q := t.takeWhile (fun c => c ≠ ':')
  tryAloop t q q.length

/-- `argRe.FindStringSubmatch`: scan left to right; at each position prefer
the first alternative `(\d+)` (greedy), then the bracket alternative.
Returns groups 1–4 (empty string for an unset group), or `none` when the
whole string has no match. -/
def argReFind : Str → Option (Str × Str × Str × Str)
  | [] => none
  | c :: t =>
    if isDigitCh c then some (c :: t.takeWhile isDigitCh, [], [], [])
    else if c = '[' then
      match bracketMatch t with
      | some m => some ([], m.1, m.2.1, m.2.2)
      | none => argReFind t
    else argReFind t

/-- The slice-notation part of `parseArg` (everything after the plain
number branch), with Go's `spec` mutation and `err` flow made explicit:
a failed `Atoi` of the start leaves `Start` at 0 and sets the error, but a
later `Atoi` of the end overwrites `err`. -/
def sliceBranch (s r e : Str) : Option ArgSpec :=
  if s = [] ∧ r = [] ∧ e = [] then none
  else
    let sp : Int × Bool :=
      if s = [] then (0, true)
      else match atoi s with
        | some v => (v, true)
        | none => (0, false)
    if r = [] then (if sp.2 then some ⟨sp.1, 0⟩ else none)
    else if e = [] then (if sp.2 ∧ sp.1 ≥ 0 then some ⟨sp.1, -1⟩ else none)
    else
      match atoi e with
      | some en => if sp.1 ≥ 0 ∧ (en = -1 ∨ en > sp.1) then some ⟨sp.1, en⟩ else none
      | none => none

/-- `parseArg` from part_001.  `atoi [] = none` subsumes the Go guard
`m[1] != ""`, so the plain-number branch fires exactly when group 1 is a
non-empty numeral that `Atoi` accepts. -/
def parseArg (tval0 : Str) : Option ArgSpec :=
  let tval := trimSpace tval0
  if tval = [] then none
  else
    match argReFind tval with
    | none => none
    | some m =>
      match atoi m.1 with
      | some v => some ⟨v, 0⟩
      | none => sliceBranch m.2.1 m.2.2.1 m.2.2.2

/-- `Tag.Arg`. -/
def Tag.Arg (tag : Tag) : Option ArgSpec :=
  let d := Tag.decompose tag
  if d.1 = [] then none else parseArg d.1

/-- `Tag.Default`. -/
def Tag.Default (tag : Tag) : Option Str :=
  let d := Tag.decompose tag
  if d.2.1 ≠ [] then some d.2.1 else none

/-- `FlagSpec` from part_001. -/
structure FlagSpec where
  Long : Str
  Short : Str
deriving DecidableEq, Repr

/-- The long-name continuation class `[a-zA-Z0-9_-]` of `flagRe`. -/
def isLongCh (c : Char) : Bool := isAlphaCh c || isDigitCh c || c = '_' || c = '-'

/-- The short-form class of `flagRe`, written `[a-zA-z]` in the source:
the union of the ranges a–z and A–z (the latter spans codes 65–122, so it
also admits the six punctuation characters between Z and a). -/
def isShortCh (c : Char) : Bool :=
  (97 ≤ c.toNat && c.toNat ≤ 122) || (65 ≤ c.toNat && c.toNat ≤ 122)

/-- `flagRe.FindStringSubmatch` for the anchored pattern
`^([a-zA-Z][a-zA-Z0-9_-]+)(?:,\s*([a-zA-z]))?$`.  Since `,` is outside the
long-name class, the long capture is forced to the maximal class run, which
must then be followed by nothing or by `,` + spaces + one short character. -/
def flagReMatch : Str → Option (Str × Str)
  | [] => none
  | c :: rest =>
    if isAlphaCh c then
      let run := rest.takeWhile isLongCh
      if run = [] then none
      else
        match rest.drop run.length with
        | [] => some (c :: run, [])
        | ',' :: t =>
          (match t.dropWhile isReSpace with
           | [d] => if isShortCh d then some (c :: run, [d]) else none
           | _ => none)
        | _ => none
    else none

/-- `parseFlag` from part_001. -/
def parseFlag (tval0 : Str) : Option FlagSpec :=
  let tval := trimSpace tval0
  if tval = [] then none
  else (flagReMatch tval).map (fun m => ⟨m.1, m.2⟩)

/-- `Tag.Flag`. -/
def Tag.Flag (tag : Tag) : Option FlagSpec :=
  let d := Tag.decompose tag
  if d.2.2 = [] then none else parseFlag d.2.2

/-!  Metadata compiler: `src/meta/meta.go` and `src/cliche.go`. -/

/-- One state-machine step modelling
`whitespaceRunsRe.ReplaceAllLiteralString(doc, " ")` for the pattern `\s+`:
each maximal run of regexp whitespace becomes a single space.  The Boolean
records whether the previous character was part of a whitespace run. -/
def collapseAux : Str → Bool → Str
  | [], _ => []
  | c :: t, prev =>
    if isReSpace c then (if prev then collapseAux t true else ' ' :: collapseAux t true)
    else c :: collapseAux t false

/-- Collapse every run of `\s` characters to one space (meta.go line 186). -/
def collapseRuns (s : Str) : Str := collapseAux s false

/-- `strings.Replace(s, pat, rep, 1)`: replace the first occurrence of
`pat` (for empty `pat`, insert `rep` at the front). -/
def replaceOnce (pat rep : Str) : Str → Str
  | [] => if startsWith pat [] then rep else []
  | c :: t =>
    if startsWith pat (c :: t) then rep ++ (c :: t).drop pat.length
    else c :: replaceOnce pat rep t

/-- `sanitizeHelp` from `src/cliche.go` (no whitespace collapsing). -/
def sanitizeHelpCliche (doc0 pkg cmd : Str) : Str :=
  let d1 := match cutStart (chars ("Package ")) doc0 with
    | some r => r
    | none => doc0
  if d1 = [] then []
  else
    let d2 := if startsWith pkg d1 then replaceOnce pkg cmd d1 else d1
    trimSpace d2

/-- `sanitizeHelp` from `src/meta/meta.go` (collapses whitespace runs
before trimming). -/
def sanitizeHelpMeta (doc0 pkg cmd : Str) : Str :=
  let d1 := match cutStart (chars ("Package ")) doc0 with
    | some r => r
    | none => doc0
  if d1 = [] then []
  else
    let d2 := if startsWith pkg d1 then replaceOnce pkg cmd d1 else d1
    trimSpace (collapseRuns d2)

def isUpperCh (c : Char) : Bool := 65 ≤ c.toNat && c.toNat ≤ 90
def isLowerCh (c : Char) : Bool := 97 ≤ c.toNat && c.toNat ≤ 122

def lowerCh (c : Char) : Char :=
  if isUpperCh c then Char.ofNat (c.toNat + 32) else c

/-- Modelled from the spec: kebab-case conversion.  The source delegates to
`strcase.ToKebab` from the external `github.com/iancoleman/strcase`
dependency, which is not part of this repository; the spec (section 4.2)
specifies only "converts the source package identifier to kebab-case".
Lowercase every character, map spaces and underscores to hyphens, and break
a lower-or-digit to upper transition with a hyphen. -/
def kebabAux : Option Char → Str → Str
  | _, [] => []
  | prev, c :: t =>
    if c = ' ' || c = '_' then '-' :: kebabAux (some c) t
    else if isUpperCh c && (match prev with
        | some p => isLowerCh p || isDigitCh p
        | none => false) then
      '-' :: lowerCh c :: kebabAux (some c) t
    else lowerCh c :: kebabAux (some c) t

/-- Modelled from the spec: `strcase.ToKebab`. -/
def toKebab (s : Str) : Str := kebabAux none s

/-- `commandName` from `src/meta/meta.go`: kebab-case of the package name
(no override mechanism exists). -/
def commandName (pkg : Str) : Str := toKebab pkg

/-- A struct field as supplied by the introspection boundary (spec section
6): declared names, optional doc string, optional raw cliche annotation
(the value `reflect.StructTag.Lookup` yields for the empty key), and a
textual type descriptor. -/
structure GoField where
  names : List Str
  doc : Option Str
  tag : Option Str
  typ : Str
deriving DecidableEq, Repr

/-- `ast.IsExported` for the claims' ASCII identifiers: first character is
an upper-case letter.  An absent name is never exported. -/
def isExportedName : Str → Bool
  | [] => false
  | c :: _ => isUpperCh c

/-- `CommandInput` from `src/meta/meta.go` (field `Type` is rendered as
`Typ` because `Type` is reserved in Lean). -/
structure CommandInput where
  FieldName : Str
  Tag : Str
  Doc : Str
  Typ : Str
deriving DecidableEq, Repr

/-- The `CommandInput` appended for an eligible field: doc, tag and type
captured verbatim (absent doc or tag becomes the empty string). -/
def inputOfField (name : Str) (f : GoField) : CommandInput :=
  { FieldName := name, Tag := f.tag.getD [], Doc := f.doc.getD [], Typ := f.typ }

/-- `compileInputs` from `src/meta/meta.go`: skip nameless fields,
multi-name fields, and fields whose sole name is unexported; emit one
input per remaining field, in order. -/
def compileInputs : List GoField → List CommandInput
  | [] => []
  | f :: rest =>
    match f.names with
    | [n] =>
      if isExportedName n then inputOfField n f :: compileInputs rest
      else compileInputs rest
    | _ => compileInputs rest

/-- `Command` from `src/meta/meta.go` (field `Type` rendered as `Typ`). -/
structure Command where
  Name : Str
  Package : Str
  Typ : Str
  Help : Str
  Description : Str
  Inputs : List CommandInput
deriving DecidableEq, Repr

/-- The success path of `FromFile` (meta.go lines 248-258): assembly of the
`Command` from the data the introspection boundary (spec section 6)
supplies — package name, package doc, the located type's name and doc, and
its struct fields.  The composite literal sets only the exported fields,
so the unexported dispatch field `typ` (meta.go line 58) keeps its zero
value `""`; `ast.Inspect(ourType.Decl, meta.Compile)` then reaches the
located `TypeSpec`, whose name is compared against `meta.typ` at
meta.go line 142, a check that succeeds only for an empty type name —
so `compileInputs` runs only in that degenerate case and `Inputs` stays
empty for every named type. -/
def fromFileModel (pkgName pkgDoc typeName typeDoc : Str)
    (fields : List GoField) : Command :=
  let cmd := commandName pkgName
  let typZero : Str := []
  { Name := cmd
    Package := pkgName
    Typ := typeName
    Help := sanitizeHelpMeta pkgDoc pkgName cmd
    Description := trimSpace typeDoc
    Inputs := if typeName = typZero then compileInputs fields else [] }

/-!  Spec-side definitions, used to state the claims. -/

/-- Spec-side reading of `decompose` (claim C6): the whitespace-trimmed
value of the last semicolon-separated component (components themselves
trimmed) carrying the given prefix, or empty if there is none. -/
def lastDirective (pfx tag : Str) : Str :=
  match (((splitSemi tag).map trimSpace).filter (fun c => startsWith pfx c)).getLast? with
  | some c => trimSpace (c.drop pfx.length)
  | none => []

/-- `lastDirective` generalized over the value reported when no component
carries the prefix; the accumulator shape of the `decompose` fold. -/
def pickLast (pfx : Str) (comps : List Str) (dflt : Str) : Str :=
  match ((comps.map trimSpace).filter (fun c => startsWith pfx c)).getLast? with
  | some c => trimSpace (c.drop pfx.length)
  | none => dflt

/-- Spec-side eligibility of a field (claim C9): exactly one declared name
and that name exported. -/
def eligibleField (f : GoField) : Bool :=
  match f.names with
  | [n] => isExportedName n
  | _ => false

/-- The input an eligible field compiles to (claim C9). -/
def inputOf (f : GoField) : CommandInput := inputOfField (f.names.headD []) f

/-- The decimal numeral of a natural number. -/
def natNumeral (n : Nat) : Str :=
  if h : n < 10 then [Char.ofNat (48 + n)]
  else natNumeral (n / 10) ++ [Char.ofNat (48 + n % 10)]
termination_by n
decreasing_by exact Nat.div_lt_self (by omega) (by omega)

/-- Whitespace discipline for claim C10: every `\s` character is a plain
space and no two adjacent characters are both `\s`. -/
def spacedOK : Str → Bool
  | [] => true
  | [c] => !isReSpace c || c = ' '
  | c :: d :: t => (!isReSpace c || (c = ' ' && !isReSpace d)) && spacedOK (d :: t)

/-- No `\s` characters at all (for the command-name argument in C10). -/
def noWS (s : Str) : Bool := s.all (fun c => !isReSpace c)

/-!  The model reproduces the repository's own test tables
(`TestTagArg`, `TestTagDecompose`, `TestTagDefault`, `TestTagFlag` in
`src/unnamed/part_002`). -/

example : Tag.Arg (chars ("")) = none := by decide
example : Tag.Arg (chars ("arg:42")) = some ⟨42, 0⟩ := by decide
example : Tag.Arg (chars ("arg:[42]")) = some ⟨42, 0⟩ := by decide
example : Tag.Arg (chars ("arg:[2:4]")) = some ⟨2, 4⟩ := by decide
example : Tag.Arg (chars ("arg:[0:4]")) = some ⟨0, 4⟩ := by decide
example : Tag.Arg (chars ("arg:[:4]")) = some ⟨0, 4⟩ := by decide
example : Tag.Arg (chars ("arg:[2:]")) = some ⟨2, -1⟩ := by decide
example : Tag.Arg (chars ("arg:[:]")) = some ⟨0, -1⟩ := by decide
example : Tag.Arg (chars ("arg:")) = none := by decide
example : Tag.Arg (chars ("arg:[2:2]")) = none := by decide
example : Tag.Arg (chars ("arg:[4:2]")) = none := by decide
example : Tag.Arg (chars ("arg:[2:0]")) = none := by decide
example : Tag.Arg (chars ("arg:[2:a]")) = none := by decide
example : Tag.Arg (chars ("arg:[]")) = none := by decide
example : Tag.Arg (chars ("arg:I thrive in chaos.")) = none := by decide
example : Tag.decompose (chars ("arg:;default:;flag:")) = ([], [], []) := by decide
example : Tag.decompose (chars ("arg:FOO;default:BAR;flag:BAZ"))
    = (chars ("FOO"), chars ("BAR"), chars ("BAZ")) := by decide
example : Tag.decompose (chars ("default:BAR;flag:BAZ;arg:FOO"))
    = (chars ("FOO"), chars ("BAR"), chars ("BAZ")) := by decide
example : Tag.decompose (chars ("arg: FOO ; default: BAR ; flag: BAZ ;"))
    = (chars ("FOO"), chars ("BAR"), chars ("BAZ")) := by decide
example : Tag.decompose (chars ("arg:FOO;default:BAR;nonsense:CANTFINDTHIS!;flag:BAZ"))
    = (chars ("FOO"), chars ("BAR"), chars ("BAZ")) := by decide
example : Tag.Default (chars ("default:42")) = some (chars ("42")) := by decide
example : Tag.Default (chars ("default:\"foo\"")) = some (chars ("\"foo\"")) := by decide
example : Tag.Default (chars ("default:")) = none := by decide
example : Tag.Flag (chars ("flag:foo")) = some ⟨chars ("foo"), []⟩ := by decide
example : Tag.Flag (chars ("flag:foo,F")) = some ⟨chars ("foo"), chars ("F")⟩ := by decide
example : Tag.Flag (chars ("flag:f,b")) = none := by decide
example : Tag.Flag (chars ("flag:foo,bar")) = none := by decide
example : Tag.Flag (chars ("default:")) = none := by decide

/-!  Basic string lemmas. -/

lemma startsWith_head_eq {x : Char} {p s : Str} (h : startsWith (x :: p) s = true) :
    ∃ t, s = x :: t := by
  cases s with
  | nil => simp [startsWith] at h
  | cons c cs =>
    refine ⟨cs, ?_⟩
    simp only [startsWith, Bool.and_eq_true, decide_eq_true_eq] at h
    rw [h.1]

lemma startsWith_false_of_head_ne {x y : Char} {p q s : Str} (hxy : x ≠ y)
    (h : startsWith (x :: p) s = true) : startsWith (y :: q) s = false := by
  obtain ⟨t, rfl⟩ := startsWith_head_eq h
  simp only [startsWith, Bool.and_eq_false_iff, decide_eq_false_iff_not]
  exact Or.inl (fun hyx => hxy hyx.symm)

lemma startsWith_self_append (p v : Str) : startsWith p (p ++ v) = true := by
  induction p with
  | nil => rfl
  | cons c cs ih => simp [startsWith, ih]

lemma dropWhile_eq_self_of_all {p : Char → Bool} {l : Str}
    (h : ∀ c ∈ l, p c = false) : l.dropWhile p = l := by
  cases l with
  | nil => rfl
  | cons c cs => simp [List.dropWhile_cons, h c (by simp)]

lemma trimSpace_no_ws {s : Str} (h : ∀ c ∈ s, isUniSpace c = false) :
    trimSpace s = s := by
  unfold trimSpace
  rw [dropWhile_eq_self_of_all h]
  rw [dropWhile_eq_self_of_all (fun c hc => h c (List.mem_reverse.mp hc))]
  exact List.reverse_reverse s

lemma takeWhile_eq_self_of_all {p : Char → Bool} {l : Str}
    (h : ∀ c ∈ l, p c = true) : l.takeWhile p = l := by
  induction l with
  | nil => rfl
  | cons c cs ih =>
    simp [List.takeWhile_cons, h c (by simp), ih (fun d hd => h d (by simp [hd]))]

lemma takeWhile_append_of_all {p : Char → Bool} {xs : Str} (ys : Str)
    (h : ∀ c ∈ xs, p c = true) :
    (xs ++ ys).takeWhile p = xs ++ ys.takeWhile p := by
  induction xs with
  | nil => rfl
  | cons c cs ih =>
    simp [List.takeWhile_cons, h c (by simp), ih (fun d hd => h d (by simp [hd]))]

lemma splitSemi_no_semi {s : Str} (h : ∀ c ∈ s, c ≠ ';') : splitSemi s = [s] := by
  induction s with
  | nil => rfl
  | cons c cs ih =>
    rw [splitSemi, if_neg (h c (by simp)), ih (fun d hd => h d (by simp [hd]))]

/-!  `decompose` agrees with its spec-side description (claims C6 and C8). -/

lemma pickLast_cons (pfx c : Str) (rest : List Str) (dflt : Str) :
    pickLast pfx (c :: rest) dflt =
      if startsWith pfx (trimSpace c) then
        pickLast pfx rest (trimSpace ((trimSpace c).drop pfx.length))
      else pickLast pfx rest dflt := by
  unfold pickLast
  simp only [List.map_cons, List.filter_cons]
  by_cases h : startsWith pfx (trimSpace c)
  · rw [if_pos h, if_pos h]
    cases hf : (rest.map trimSpace).filter (fun x => startsWith pfx x) with
    | nil => simp
    | cons x xs =>
      simp only [List.getLast?_cons_cons]
      cases hg : (x :: xs).getLast? with
      | none => simp at hg
      | some y => simp [hg]
  · rw [if_neg h, if_neg (by simpa using h)]

lemma foldl_decomposeStep (comps : List Str) (a d f : Str) :
    comps.foldl decomposeStep (a, d, f) =
      (pickLast argPfx comps a, pickLast defaultPfx comps d, pickLast flagPfx comps f) := by
  induction comps generalizing a d f with
  | nil => simp [pickLast]
  | cons c rest ih =>
    rw [List.foldl_cons, pickLast_cons, pickLast_cons, pickLast_cons]
    show rest.foldl decomposeStep (decomposeStep (a, d, f) c) = _
    unfold decomposeStep cutStart
    by_cases harg : startsWith argPfx (trimSpace c)
    · have hflag : startsWith flagPfx (trimSpace c) = false :=
        startsWith_false_of_head_ne (by decide) harg
      have hdef : startsWith defaultPfx (trimSpace c) = false :=
        startsWith_false_of_head_ne (by decide) harg
      simp only [harg, hflag, hdef, if_pos, if_true, Bool.false_eq_true, if_false]
      exact ih _ _ _
    · by_cases hflag : startsWith flagPfx (trimSpace c)
      · have hdef : startsWith defaultPfx (trimSpace c) = false :=
          startsWith_false_of_head_ne (by decide) hflag
        simp only [harg, hflag, hdef, if_true, Bool.false_eq_true, if_false]
        exact ih _ _ _
      · by_cases hdef : startsWith defaultPfx (trimSpace c)
        · simp only [harg, hflag, hdef, if_true, if_false]
          exact ih _ _ _
        · simp only [harg, hflag, hdef, if_false]
          exact ih a d f

lemma decompose_spec (tag : Tag) :
    Tag.decompose tag =
      (lastDirective argPfx tag, lastDirective defaultPfx tag, lastDirective flagPfx tag) := by
  unfold Tag.decompose
  by_cases h : tag = []
  · subst h; decide
  · rw [if_neg h, foldl_decomposeStep]
    rfl

/-!  `compileInputs` agrees with its spec-side description (claim C9). -/

lemma compileInputs_filter_map (fields : List GoField) :
    compileInputs fields = (fields.filter eligibleField).map inputOf := by
  induction fields with
  | nil => rfl
  | cons f rest ih =>
    obtain ⟨nms, dc, tg, tp⟩ := f
    cases nms with
    | nil => simp [compileInputs, eligibleField, List.filter_cons, ih]
    | cons n tl =>
      cases tl with
      | nil =>
        by_cases hex : isExportedName n
        · simp [compileInputs, eligibleField, List.filter_cons, hex, ih,
            inputOf, inputOfField]
        · simp [compileInputs, eligibleField, List.filter_cons, hex, ih]
      | cons n2 tl2 =>
        simp [compileInputs, eligibleField, List.filter_cons, ih]

/-!  Decimal numerals (claims C2 and C7). -/

lemma digitChar_toNat {k : Nat} (hk : k < 10) : (Char.ofNat (48 + k)).toNat = 48 + k := by
  interval_cases k <;> decide

lemma digitChar_isDigit {k : Nat} (hk : k < 10) : isDigitCh (Char.ofNat (48 + k)) = true := by
  interval_cases k <;> decide

lemma natNumeral_ne_nil (n : Nat) : natNumeral n ≠ [] := by
  rw [natNumeral]
  split
  · simp
  · simp

lemma natNumeral_all_digits (n : Nat) : ∀ c ∈ natNumeral n, isDigitCh c = true := by
  induction n using Nat.strong_induction_on with
  | _ n ih =>
    rw [natNumeral]
    split
    · next h =>
      intro c hc
      simp only [List.mem_singleton] at hc
      rw [hc]
      exact digitChar_isDigit h
    · next h =>
      intro c hc
      rw [List.mem_append] at hc
      rcases hc with hc | hc
      · exact ih (n / 10) (Nat.div_lt_self (by omega) (by omega)) c hc
      · simp only [List.mem_singleton] at hc
        rw [hc]
        exact digitChar_isDigit (Nat.mod_lt _ (by omega))

lemma natValue_natNumeral (n : Nat) : natValue (natNumeral n) = n := by
  induction n using Nat.strong_induction_on with
  | _ n ih =>
    rw [natNumeral]
    split
    · next h =>
      show natValue [Char.ofNat (48 + n)] = n
      unfold natValue
      simp [digitChar_toNat h]
    · next h =>
      show natValue (natNumeral (n / 10) ++ [Char.ofNat (48 + n % 10)]) = n
      unfold natValue
      rw [List.foldl_append]
      have h1 : (natNumeral (n / 10)).foldl (fun a c => 10 * a + (c.toNat - 48)) 0 = n / 10 :=
        ih (n / 10) (Nat.div_lt_self (by omega) (by omega))
      rw [h1]
      simp only [List.foldl_cons, List.foldl_nil]
      rw [digitChar_toNat (Nat.mod_lt _ (by omega))]
      omega

lemma digit_facts {c : Char} (h : isDigitCh c = true) :
    c ≠ '-' ∧ c ≠ '+' ∧ c ≠ ';' ∧ c ≠ ':' ∧ c ≠ '[' ∧ c ≠ ']' ∧
      isUniSpace c = false ∧ isReSpace c = false := by
  simp only [isDigitCh, Bool.and_eq_true, decide_eq_true_eq] at h
  refine ⟨?_, ?_, ?_, ?_, ?_, ?_, ?_, ?_⟩
  · intro hc; rw [hc] at h; simp at h
  · intro hc; rw [hc] at h; simp at h
  · intro hc; rw [hc] at h; simp at h
  · intro hc; rw [hc] at h; simp at h
  · intro hc; rw [hc] at h; simp at h
  · intro hc; rw [hc] at h; simp at h
  · simp only [isUniSpace, Bool.or_eq_false_iff, Bool.and_eq_false_iff,
      decide_eq_false_iff_not]
    omega
  · simp only [isReSpace, Bool.or_eq_false_iff, decide_eq_false_iff_not]
    omega

lemma atoi_natNumeral {n : Nat} (h : n < 2 ^ 63) : atoi (natNumeral n) = some (n : Int) := by
  have hall := natNumeral_all_digits n
  obtain ⟨c, t, hct⟩ : ∃ c t, natNumeral n = c :: t := by
    cases hnn : natNumeral n with
    | nil => exact absurd hnn (natNumeral_ne_nil n)
    | cons c t => exact ⟨c, t, rfl⟩
  have hd : isDigitCh c = true := hall c (by rw [hct]; simp)
  have hfacts := digit_facts hd
  rw [hct]
  show (if c = '-' then atoiDigits true t
    else if c = '+' then atoiDigits false t
    else atoiDigits false (c :: t)) = some ((n : Int))
  rw [if_neg hfacts.1, if_neg hfacts.2.1]
  unfold atoiDigits
  rw [if_neg (by simp)]
  have hdig : (c :: t).all isDigitCh = true := by
    rw [List.all_eq_true]
    intro x hx
    exact hall x (by rw [hct]; exact hx)
  rw [if_pos hdig]
  show (if natValue (c :: t) ≤ 2 ^ 63 - 1 then some ((natValue (c :: t) : Int)) else none) = _
  have hv : natValue (c :: t) = n := by rw [← hct]; exact natValue_natNumeral n
  rw [hv, if_pos (by omega)]

/-!  Behaviour of `Tag.Arg` on well-formed numeric directives. -/

lemma decompose_arg_value {v : Str} (hws : ∀ c ∈ v, isUniSpace c = false)
    (hsemi : ∀ c ∈ v, c ≠ ';') :
    Tag.decompose (argPfx ++ v) = (v, [], []) := by
  have hall : ∀ c ∈ argPfx ++ v, c ≠ ';' := by
    intro c hc
    rw [List.mem_append] at hc
    rcases hc with hc | hc
    · fin_cases hc <;> decide
    · exact hsemi c hc
  have hallws : ∀ c ∈ argPfx ++ v, isUniSpace c = false := by
    intro c hc
    rw [List.mem_append] at hc
    rcases hc with hc | hc
    · fin_cases hc <;> decide
    · exact hws c hc
  unfold Tag.decompose
  rw [if_neg (by simp [argPfx]), splitSemi_no_semi hall]
  show decomposeStep ([], [], []) (argPfx ++ v) = (v, [], [])
  simp only [decomposeStep, cutStart, trimSpace_no_ws hallws, startsWith_self_append,
    eq_self_iff_true, if_true]
  simp [List.drop_left, trimSpace_no_ws hws]

lemma parseArg_numeral {n : Nat} (h : n < 2 ^ 63) :
    parseArg (natNumeral n) = some ⟨(n : Int), 0⟩ := by
  have hall := natNumeral_all_digits n
  obtain ⟨c, t, hct⟩ : ∃ c t, natNumeral n = c :: t := by
    cases hnn : natNumeral n with
    | nil => exact absurd hnn (natNumeral_ne_nil n)
    | cons c t => exact ⟨c, t, rfl⟩
  have hws : ∀ x ∈ natNumeral n, isUniSpace x = false :=
    fun x hx => (digit_facts (hall x hx)).2.2.2.2.2.2.1
  unfold parseArg
  rw [trimSpace_no_ws hws, if_neg (natNumeral_ne_nil n), hct]
  have hfind : argReFind (c :: t) = some (c :: t.takeWhile isDigitCh, [], [], []) := by
    show (if isDigitCh c then some (c :: t.takeWhile isDigitCh, [], [], [])
      else if c = '[' then
        match bracketMatch t with
        | some m => some ([], m.1, m.2.1, m.2.2)
        | none => argReFind t
      else argReFind t) = _
    rw [if_pos (hall c (by rw [hct]; simp))]
  rw [hfind]
  have htw : t.takeWhile isDigitCh = t :=
    takeWhile_eq_self_of_all (fun d hd => hall d (by rw [hct]; simp [hd]))
  show ((match atoi (c :: t.takeWhile isDigitCh) with
    | some v => some ⟨v, 0⟩
    | none => sliceBranch [] [] []) : Option ArgSpec) = _
  rw [htw, ← hct, atoi_natNumeral h]

/-- The well-formed bounded range `[S:E]` behind the regexp model:
the bracket alternative captures `(S-numeral, ":", E-numeral)`. -/
lemma bracketMatch_range {ds es : Str} (hne : ds ≠ [])
    (hds : ∀ c ∈ ds, c ≠ ':' ∧ c ≠ ']') (hes : ∀ c ∈ es, c ≠ ']') :
    bracketMatch (ds ++ ':' :: (es ++ [']'])) = some (ds, [':'], es) := by
  have hq : (ds ++ ':' :: (es ++ [']'])).takeWhile (fun c => c ≠ ':') = ds := by
    rw [takeWhile_append_of_all _ (fun c hc => by simp [(hds c hc).1])]
    simp [List.takeWhile_cons]
  have htail : matchTail (es ++ [']']) = some es := by
    unfold matchTail
    rw [takeWhile_append_of_all _ (fun c hc => by simp [hes c hc])]
    simp [List.takeWhile_cons]
  unfold bracketMatch
  rw [hq]
  obtain ⟨c0, cs0, rfl⟩ : ∃ c0 cs0, ds = c0 :: cs0 := by
    cases ds with
    | nil => exact absurd rfl hne
    | cons c0 cs0 => exact ⟨c0, cs0, rfl⟩
  show tryAloop _ _ (cs0.length + 1) = _
  unfold tryAloop
  have hdrop : ((c0 :: cs0) ++ ':' :: (es ++ [']'])).drop (cs0.length + 1)
      = ':' :: (es ++ [']']) := by
    have : cs0.length + 1 = (c0 :: cs0).length := by simp
    rw [this, List.drop_left]
  rw [hdrop]
  show (match tryBC (':' :: (es ++ [']'])) with
    | some bc => some ((c0 :: cs0).take (cs0.length + 1), bc.1, bc.2)
    | none => tryAloop _ _ cs0.length) = _
  have hbc : tryBC (':' :: (es ++ [']'])) = some ([':'], es) := by
    show (match matchTail (es ++ [']']) with
      | some c => some ([':'], c)
      | none => (matchTail (':' :: (es ++ [']']))).map (fun c => ([], c))) = _
    rw [htail]
  rw [hbc]
  show some ((c0 :: cs0).take (cs0.length + 1), [':'], es) = _
  have : cs0.length + 1 = (c0 :: cs0).length := by simp
  rw [this, List.take_length]

/-- The omitted-start range `[:E]`: the bracket alternative captures
`("", ":", E-numeral)`. -/
lemma bracketMatch_noStart {es : Str} (hes : ∀ c ∈ es, c ≠ ']') :
    bracketMatch (':' :: (es ++ [']'])) = some ([], [':'], es) := by
  have htail : matchTail (es ++ [']']) = some es := by
    unfold matchTail
    rw [takeWhile_append_of_all _ (fun c hc => by simp [hes c hc])]
    simp [List.takeWhile_cons]
  unfold bracketMatch
  have hq : (':' :: (es ++ [']'])).takeWhile (fun c => c ≠ ':') = [] := by
    simp [List.takeWhile_cons]
  rw [hq]
  show (tryBC (':' :: (es ++ [']']))).map (fun bc => ([], bc.1, bc.2)) = _
  have hbc : tryBC (':' :: (es ++ [']'])) = some ([':'], es) := by
    show (match matchTail (es ++ [']']) with
      | some c => some ([':'], c)
      | none => (matchTail (':' :: (es ++ [']']))).map (fun c => ([], c))) = _
    rw [htail]
  rw [hbc]
  rfl

lemma argReFind_bracket {t : Str} {m : Str × Str × Str} (h : bracketMatch t = some m) :
    argReFind ('[' :: t) = some ([], m.1, m.2.1, m.2.2) := by
  show (if isDigitCh '[' then some ('[' :: t.takeWhile isDigitCh, [], [], [])
    else if '[' = '[' then
      match bracketMatch t with
      | some m => some ([], m.1, m.2.1, m.2.2)
      | none => argReFind t
    else argReFind t) = _
  rw [if_neg (by decide), if_pos rfl, h]

lemma range_chars {S E : Nat} :
    ∀ c ∈ '[' :: (natNumeral S ++ ':' :: (natNumeral E ++ [']'])),
      isUniSpace c = false ∧ c ≠ ';' := by
  intro c hc
  simp only [List.mem_cons, List.mem_append, List.mem_singleton,
    List.mem_nil_iff, or_false] at hc
  rcases hc with rfl | hc | rfl | hc | rfl
  · exact ⟨by decide, by decide⟩
  · have := digit_facts (natNumeral_all_digits S c hc)
    exact ⟨this.2.2.2.2.2.2.1, this.2.2.1⟩
  · exact ⟨by decide, by decide⟩
  · have := digit_facts (natNumeral_all_digits E c hc)
    exact ⟨this.2.2.2.2.2.2.1, this.2.2.1⟩
  · exact ⟨by decide, by decide⟩

lemma noStart_chars {E : Nat} :
    ∀ c ∈ '[' :: ':' :: (natNumeral E ++ [']']),
      isUniSpace c = false ∧ c ≠ ';' := by
  intro c hc
  simp only [List.mem_cons, List.mem_append, List.mem_singleton,
    List.mem_nil_iff, or_false] at hc
  rcases hc with rfl | rfl | hc | rfl
  · exact ⟨by decide, by decide⟩
  · exact ⟨by decide, by decide⟩
  · have := digit_facts (natNumeral_all_digits E c hc)
    exact ⟨this.2.2.2.2.2.2.1, this.2.2.1⟩
  · exact ⟨by decide, by decide⟩

lemma parseArg_range {S E : Nat} (hS : S < 2 ^ 63) (hE : E < 2 ^ 63) :
    parseArg ('[' :: (natNumeral S ++ ':' :: (natNumeral E ++ [']'])))
      = if (S : Int) < (E : Int) then some ⟨(S : Int), (E : Int)⟩ else none := by
  have hws : ∀ c ∈ '[' :: (natNumeral S ++ ':' :: (natNumeral E ++ [']'])),
      isUniSpace c = false := fun c hc => (range_chars c hc).1
  have hbm : bracketMatch (natNumeral S ++ ':' :: (natNumeral E ++ [']']))
      = some (natNumeral S, [':'], natNumeral E) := by
    refine bracketMatch_range (natNumeral_ne_nil S) ?_ ?_
    · intro c hc
      have := digit_facts (natNumeral_all_digits S c hc)
      exact ⟨this.2.2.2.1, this.2.2.2.2.2.1⟩
    · intro c hc
      exact (digit_facts (natNumeral_all_digits E c hc)).2.2.2.2.2.1
  unfold parseArg
  rw [trimSpace_no_ws hws, if_neg (by simp), argReFind_bracket hbm]
  show sliceBranch (natNumeral S) [':'] (natNumeral E) = _
  unfold sliceBranch
  rw [if_neg (by simp)]
  have hsp : (if natNumeral S = [] then ((0 : Int), true)
      else match atoi (natNumeral S) with
        | some v => (v, true)
        | none => ((0 : Int), false)) = ((S : Int), true) := by
    rw [if_neg (natNumeral_ne_nil S), atoi_natNumeral hS]
  simp only [hsp]
  rw [if_neg (by simp), if_neg (natNumeral_ne_nil E), atoi_natNumeral hE]
  show ((if (S : Int) ≥ 0 ∧ ((E : Int) = -1 ∨ (E : Int) > (S : Int))
    then some (⟨(S : Int), (E : Int)⟩ : ArgSpec) else none) : Option ArgSpec) = _
  by_cases hlt : (S : Int) < (E : Int)
  · rw [if_pos ⟨Int.natCast_nonneg S, Or.inr hlt⟩, if_pos hlt]
  · rw [if_neg ?_, if_neg hlt]
    rintro ⟨h1, h2 | h2⟩ <;> omega

lemma parseArg_noStart {E : Nat} (hE : E < 2 ^ 63) :
    parseArg ('[' :: ':' :: (natNumeral E ++ [']']))
      = if (0 : Int) < (E : Int) then some ⟨0, (E : Int)⟩ else none := by
  have hws : ∀ c ∈ '[' :: ':' :: (natNumeral E ++ [']']),
      isUniSpace c = false := fun c hc => (noStart_chars c hc).1
  have hbm : bracketMatch (':' :: (natNumeral E ++ [']'])) = some ([], [':'], natNumeral E) :=
    bracketMatch_noStart
      (fun c hc => (digit_facts (natNumeral_all_digits E c hc)).2.2.2.2.2.1)
  unfold parseArg
  rw [trimSpace_no_ws hws, if_neg (by simp), argReFind_bracket hbm]
  show sliceBranch [] [':'] (natNumeral E) = _
  unfold sliceBranch
  rw [if_neg (by simp)]
  simp only [if_pos rfl]
  rw [if_neg (by simp), if_neg (natNumeral_ne_nil E), atoi_natNumeral hE]
  show ((if (0 : Int) ≥ 0 ∧ ((E : Int) = -1 ∨ (E : Int) > (0 : Int))
    then some (⟨(0 : Int), (E : Int)⟩ : ArgSpec) else none) : Option ArgSpec) = _
  by_cases hlt : (0 : Int) < (E : Int)
  · rw [if_pos ⟨le_refl 0, Or.inr hlt⟩, if_pos hlt]
  · rw [if_neg ?_, if_neg hlt]
    rintro ⟨h1, h2 | h2⟩ <;> omega

lemma tagArg_of_value {v : Str} (hv : v ≠ [])
    (hch : ∀ c ∈ v, isUniSpace c = false ∧ c ≠ ';') :
    Tag.Arg (argPfx ++ v) = parseArg v := by
  unfold Tag.Arg
  rw [decompose_arg_value (fun c hc => (hch c hc).1) (fun c hc => (hch c hc).2)]
  show (if v = [] then none else parseArg v) = _
  rw [if_neg hv]

/-!  Whitespace discipline lemmas (claim C10). -/

lemma spacedOK_tail {c : Char} {t : Str} (h : spacedOK (c :: t) = true) :
    spacedOK t = true := by
  cases t with
  | nil => rfl
  | cons d r =>
    have : spacedOK (c :: d :: r) = ((!isReSpace c || (c = ' ' && !isReSpace d)) &&
        spacedOK (d :: r)) := rfl
    rw [this, Bool.and_eq_true] at h
    exact h.2

lemma spacedOK_head_ws {c : Char} {t : Str} (h : spacedOK (c :: t) = true)
    (hc : isReSpace c = true) :
    c = ' ' ∧ (∀ d r, t = d :: r → isReSpace d = false) := by
  cases t with
  | nil =>
    have : spacedOK [c] = (!isReSpace c || c = ' ') := rfl
    rw [this, hc] at h
    simp only [Bool.not_true, Bool.false_or, decide_eq_true_eq] at h
    exact ⟨h, fun d r hdr => by cases hdr⟩
  | cons d r =>
    have : spacedOK (c :: d :: r) = ((!isReSpace c || (c = ' ' && !isReSpace d)) &&
        spacedOK (d :: r)) := rfl
    rw [this, hc, Bool.and_eq_true] at h
    simp only [Bool.not_true, Bool.false_or, Bool.and_eq_true, decide_eq_true_eq,
      Bool.not_eq_true'] at h
    exact ⟨h.1.1, fun d2 r2 hdr => by
      cases hdr
      exact h.1.2⟩

lemma spacedOK_drop (n : Nat) {s : Str} (h : spacedOK s = true) :
    spacedOK (s.drop n) = true := by
  induction n generalizing s with
  | zero => exact h
  | succ k ih =>
    cases s with
    | nil => rfl
    | cons c t => exact ih (spacedOK_tail h)

lemma spacedOK_append_front {u v : Str} (hu : ∀ c ∈ u, isReSpace c = false)
    (hune : u ≠ []) (hv : spacedOK v = true) : spacedOK (u ++ v) = true := by
  induction u with
  | nil => exact absurd rfl hune
  | cons c u2 ih =>
    cases u2 with
    | nil =>
      cases v with
      | nil =>
        show (!isReSpace c || c = ' ') = true
        rw [hu c (by simp)]
        rfl
      | cons d r =>
        show ((!isReSpace c || (c = ' ' && !isReSpace d)) && spacedOK (d :: r)) = true
        rw [hu c (by simp), hv]
        rfl
    | cons c2 u3 =>
      show ((!isReSpace c || (c = ' ' && !isReSpace c2)) && spacedOK (c2 :: (u3 ++ v)))
        = true
      rw [hu c (by simp)]
      have h2 := ih (fun d hd => hu d (by simp [List.mem_cons] at hd ⊢; tauto)) (by simp)
      rw [List.cons_append] at h2
      rw [h2]
      rfl

lemma collapseAux_flag {t : Str} (h : ∀ d r, t = d :: r → isReSpace d = false) :
    collapseAux t true = collapseAux t false := by
  cases t with
  | nil => rfl
  | cons d r =>
    show collapseAux (d :: r) true = collapseAux (d :: r) false
    unfold collapseAux
    rw [h d r rfl]
    rfl

lemma collapseRuns_of_spacedOK {s : Str} (h : spacedOK s = true) :
    collapseRuns s = s := by
  unfold collapseRuns
  induction s with
  | nil => rfl
  | cons c t ih =>
    unfold collapseAux
    by_cases hc : isReSpace c = true
    · obtain ⟨hsp, hhd⟩ := spacedOK_head_ws h hc
      rw [hc, if_pos rfl, if_neg (by simp), collapseAux_flag hhd,
        ih (spacedOK_tail h), hsp]
    · rw [if_neg hc]
      rw [ih (spacedOK_tail h)]

lemma replaceOnce_found {pat s : Str} (rep : Str) (h : startsWith pat s = true) :
    replaceOnce pat rep s = rep ++ s.drop pat.length := by
  cases s with
  | nil =>
    cases pat with
    | nil => simp [replaceOnce, startsWith]
    | cons p ps => simp [startsWith] at h
  | cons c t =>
    unfold replaceOnce
    rw [if_pos h]

lemma sanitize_tail_agree {d1 pkg cmd : Str} (hd1 : spacedOK d1 = true)
    (hcmd : noWS cmd = true) (hne : cmd ≠ []) :
    (if d1 = [] then [] else
      trimSpace (collapseRuns (if startsWith pkg d1 then replaceOnce pkg cmd d1 else d1)))
    = (if d1 = [] then ([] : Str) else
      trimSpace (if startsWith pkg d1 then replaceOnce pkg cmd d1 else d1)) := by
  have hcl : ∀ c ∈ cmd, isReSpace c = false := by
    intro c hc
    unfold noWS at hcmd
    rw [List.all_eq_true] at hcmd
    simpa using hcmd c hc
  by_cases hnil : d1 = []
  · rw [if_pos hnil, if_pos hnil]
  · rw [if_neg hnil, if_neg hnil]
    congr 1
    apply collapseRuns_of_spacedOK
    by_cases hsw : startsWith pkg d1 = true
    · rw [if_pos hsw, replaceOnce_found cmd hsw]
      exact spacedOK_append_front hcl hne (spacedOK_drop _ hd1)
    · rw [if_neg hsw]
      exact hd1

lemma sanitizeHelp_agree {doc pkg cmd : Str} (hdoc : spacedOK doc = true)
    (hcmd : noWS cmd = true) (hne : cmd ≠ []) :
    sanitizeHelpMeta doc pkg cmd = sanitizeHelpCliche doc pkg cmd := by
  cases hcut : cutStart (chars ("Package ")) doc with
  | none =>
    simp only [sanitizeHelpMeta, sanitizeHelpCliche, hcut]
    exact sanitize_tail_agree hdoc hcmd hne
  | some r =>
    have hr : r = doc.drop (chars ("Package ")).length := by
      unfold cutStart at hcut
      by_cases h : startsWith (chars ("Package ")) doc = true
      · rw [if_pos h] at hcut
        injection hcut with h2
        exact h2.symm
      · rw [if_neg h] at hcut
        cases hcut
    simp only [sanitizeHelpMeta, sanitizeHelpCliche, hcut]
    exact sanitize_tail_agree (by rw [hr]; exact spacedOK_drop _ hdoc) hcmd hne

/-!  The claims. -/

/-- Claim C1 says the `simple`/`Tester` source compiles to a `Command`
whose `Inputs` hold exactly one `CommandInput` for the `String` field.
The code disagrees: `FromFile` never assigns the unexported dispatch
field `typ`, so `Compile`'s name check at meta.go line 142 compares
"Tester" against "" and never fires, leaving `Inputs` empty — exactly
what the repository's own `TestFromFile` expects.  Evaluating the model
at the claim's input: every claimed field of the `Command` matches except
`Inputs`, which is empty; and `compileInputs` on the field list would
have produced precisely the claimed single `CommandInput`, so the dead
`typ` dispatch is the sole divergence. -/
theorem claim1_fromFile_inputs_empty :
    fromFileModel (chars ("simple")) (chars ("Package simple is a simple test."))
      (chars ("Tester")) (chars ("Tester is a test."))
      [{ names := [chars ("String")], doc := some (chars ("String command input.")),
         tag := none, typ := chars ("string") }]
    = { Name := chars ("simple"), Package := chars ("simple"), Typ := chars ("Tester"),
        Help := chars ("simple is a simple test."),
        Description := chars ("Tester is a test."),
        Inputs := [] }
    ∧ compileInputs
        [{ names := [chars ("String")], doc := some (chars ("String command input.")),
           tag := none, typ := chars ("string") }]
      = [{ FieldName := chars ("String"), Tag := [],
           Doc := chars ("String command input."), Typ := chars ("string") }] := by
  decide

/-- Claim C2, counterexample: `Arg("arg:42")` does not yield `{42,42}`
(the code never writes `End` in the plain-number branch, so it yields
`{42,0}`, as the repository's own test table asserts). -/
theorem claim2_counterexample : Tag.Arg (chars ("arg:42")) ≠ some ⟨42, 42⟩ := by
  decide

/-- Claim C2, amended: for every `N` representable in an int64, a bare
decimal numeral arg directive yields ok with `{Start: N, End: 0}` — `End`
keeps the zero value instead of being set to `N`. -/
theorem claim2_bare_numeral (n : Nat) (h : n < 2 ^ 63) :
    Tag.Arg (argPfx ++ natNumeral n) = some ⟨(n : Int), 0⟩ := by
  rw [tagArg_of_value (natNumeral_ne_nil n) (fun c hc =>
    ⟨(digit_facts (natNumeral_all_digits n c hc)).2.2.2.2.2.2.1,
     (digit_facts (natNumeral_all_digits n c hc)).2.2.1⟩),
    parseArg_numeral h]

/-- Witness for claim C2's amended theorem at `N = 42`. -/
theorem claim2_witness :
    42 < 2 ^ 63 ∧ Tag.Arg (argPfx ++ natNumeral 42) = some ⟨42, 0⟩ :=
  ⟨by decide, claim2_bare_numeral 42 (by decide)⟩

/-- Claim C3 names "arg:foo42bar" as rejected, but `argRe` is unanchored:
`FindStringSubmatch` matches the embedded `42` and `Arg` returns ok with
`{42,0}`. -/
theorem claim3_embedded_number_accepted :
    Tag.Arg (chars ("arg:foo42bar")) = some ⟨42, 0⟩ := by
  decide

/-- Claim C4 says negative values are rejected, but the `[N]` (no-colon)
path of `parseArg` returns before the `Start >= 0` check, so
`Arg("arg:[-1]")` returns ok with `Start = -1`. -/
theorem claim4_negative_start_accepted :
    Tag.Arg (chars ("arg:[-1]")) = some ⟨-1, 0⟩ := by
  decide

/-- Claim C5 says a single non-letter short form is rejected, but the
short-form class of `flagRe` is written `[a-zA-z]`, whose `A-z` range also
spans the six punctuation characters between `Z` and `a`; `_` is accepted. -/
theorem claim5_nonletter_short_accepted :
    Tag.Flag (chars ("flag:foo,_")) = some ⟨chars ("foo"), chars ("_")⟩ := by
  decide

/-- Claim C6: `decompose` is total and returns, per directive kind, the
trimmed value of the last trimmed component carrying that kind's prefix
(empty if none), independent of other kinds and ignoring unknown
components; hence last-wins and order independence. -/
theorem claim6_decompose_last_wins :
    (∀ tag : Tag, Tag.decompose tag =
      (lastDirective argPfx tag, lastDirective defaultPfx tag, lastDirective flagPfx tag))
    ∧ (Tag.decompose (chars ("arg:FOO;arg:QUX"))).1 = chars ("QUX")
    ∧ Tag.decompose (chars ("arg:FOO;default:BAR;flag:BAZ"))
        = Tag.decompose (chars ("default:BAR;flag:BAZ;arg:FOO")) :=
  ⟨decompose_spec, by decide, by decide⟩

/-- Claim C7: a bounded bracketed range `[S:E]` (non-negative decimal
numerals, `S` possibly omitted and then 0) parses ok to `{S,E}` exactly
when `E > S`, and is rejected when `E = S` or `E < S`. -/
theorem claim7_bounded_range (S E : Nat) (hS : S < 2 ^ 63) (hE : E < 2 ^ 63) :
    Tag.Arg (argPfx ++ ('[' :: (natNumeral S ++ ':' :: (natNumeral E ++ [']']))))
      = (if (S : Int) < (E : Int) then some ⟨(S : Int), (E : Int)⟩ else none)
    ∧ Tag.Arg (argPfx ++ ('[' :: ':' :: (natNumeral E ++ [']'])))
      = (if (0 : Int) < (E : Int) then some ⟨0, (E : Int)⟩ else none) := by
  constructor
  · rw [tagArg_of_value (by simp) range_chars, parseArg_range hS hE]
  · rw [tagArg_of_value (by simp) noStart_chars, parseArg_noStart hE]

/-- Witness for claim C7's theorem at `S = 2`, `E = 4`. -/
theorem claim7_witness :
    (2 : Nat) < 2 ^ 63 ∧ (4 : Nat) < 2 ^ 63 ∧
    (Tag.Arg (argPfx ++ ('[' :: (natNumeral 2 ++ ':' :: (natNumeral 4 ++ [']']))))
      = (if ((2 : Nat) : Int) < ((4 : Nat) : Int)
          then some ⟨((2 : Nat) : Int), ((4 : Nat) : Int)⟩ else none)
    ∧ Tag.Arg (argPfx ++ ('[' :: ':' :: (natNumeral 4 ++ [']'])))
      = (if (0 : Int) < ((4 : Nat) : Int)
          then some ⟨0, ((4 : Nat) : Int)⟩ else none)) :=
  ⟨by decide, by decide, claim7_bounded_range 2 4 (by decide) (by decide)⟩

/-- Claim C8: `Default` returns the directive's (decomposed) value with ok
exactly when the `default:` directive is present with a non-empty value;
quotes and content are preserved. -/
theorem claim8_default :
    Tag.Default (chars ("default:BAR")) = some (chars ("BAR"))
    ∧ Tag.Default (chars ("default:")) = none
    ∧ Tag.Default (chars ("default:\"foo\"")) = some (chars ("\"foo\""))
    ∧ (∀ tag : Tag, Tag.Default tag =
        if lastDirective defaultPfx tag = [] then none
        else some (lastDirective defaultPfx tag)) := by
  refine ⟨by decide, by decide, by decide, fun tag => ?_⟩
  show (if (Tag.decompose tag).2.1 ≠ [] then some (Tag.decompose tag).2.1 else none) = _
  rw [decompose_spec]
  show (if lastDirective defaultPfx tag ≠ [] then some (lastDirective defaultPfx tag)
    else none) = _
  by_cases h : lastDirective defaultPfx tag = []
  · rw [if_neg (by simpa using h), if_pos h]
  · rw [if_pos h, if_neg h]

/-- Claim C9: `compileInputs` yields exactly one input per exported
single-name field, in declaration order, and none for anonymous,
multi-name, or unexported fields; it is total, so skipping never fails the
compilation. -/
theorem claim9_field_filter :
    ∀ fields : List GoField,
      compileInputs fields = (fields.filter eligibleField).map inputOf :=
  compileInputs_filter_map

/-- Claim C10, counterexample: the two `sanitizeHelp` implementations
differ on a doc with a double space — meta collapses whitespace runs,
cliche does not. -/
theorem claim10_counterexample :
    sanitizeHelpMeta (chars ("Package a  b")) (chars ("x")) (chars ("c"))
      ≠ sanitizeHelpCliche (chars ("Package a  b")) (chars ("x")) (chars ("c")) := by
  decide

/-- Claim C10, amended: the two `sanitizeHelp` implementations agree
whenever every whitespace character of the doc is a single space not
adjacent to another whitespace character and the command name is nonempty
and whitespace-free; in general meta additionally collapses each
whitespace run to one space. -/
theorem claim10_agree_on_single_spaces (doc pkg cmd : Str)
    (hdoc : spacedOK doc = true) (hcmd : noWS cmd = true) (hne : cmd ≠ []) :
    sanitizeHelpMeta doc pkg cmd = sanitizeHelpCliche doc pkg cmd :=
  sanitizeHelp_agree hdoc hcmd hne

/-- Witness for claim C10's amended theorem on a concrete triple. -/
theorem claim10_witness :
    spacedOK (chars ("Package simple is nice.")) = true
    ∧ noWS (chars ("simple-cmd")) = true
    ∧ chars ("simple-cmd") ≠ []
    ∧ sanitizeHelpMeta (chars ("Package simple is nice.")) (chars ("simple"))
        (chars ("simple-cmd"))
      = sanitizeHelpCliche (chars ("Package simple is nice.")) (chars ("simple"))
        (chars ("simple-cmd")) :=
  ⟨by decide, by decide, by decide,
   claim10_agree_on_single_spaces _ _ _ (by decide) (by decide) (by decide)⟩
